import Mathlib

/-!
# Verification of the THAP-Circles real-time delivery and key-coordination core

A shallow embedding, in Lean 4, of the core services of the repository:
the key exchange store (`keyBundle` service), the sender-key distributor
(`senderKey.service.js`), the event outbox (`message.service.js`
notification functions together with the poll controller), the SSE delivery
channel (`sse.service.js`), and the encrypted relay
(`encryptedMessage.service.js`).  Stateful JavaScript is modelled by
explicit state passing; the two storage-level atomic operations (the
one-time-pre-key pop and the sender-key upsert) are modelled as single
steps of a transition system where concurrency matters.
-/

namespace THAP

/-! ## Key Exchange Store (keyBundle service)

A one-time pre-key is an `{id, key}` pair.  The device's pool
`oneTimePreKeys` is an ordered list; upload stores it in the given order,
`replenishPreKeys` appends with `$push/$each`, and `fetchKeyBundle`
removes the first element with an atomic `$pop : -1`. -/

structure PreKey where
  id : Nat
  key : String
deriving DecidableEq, Repr

/-- `PRE_KEY_LOW_THRESHOLD = 25` (part_018, line 5). -/
def PRE_KEY_LOW_THRESHOLD : Nat := 25

/-- The atomic storage operation at part_018 lines 89–93:
`findOneAndUpdate({_id, oneTimePreKeys.0 exists}, {$pop: {oneTimePreKeys: -1}}, {new: false})`.
On a nonempty pool it removes the first element and (reading the returned
pre-image) hands that element back; on an empty pool the filter matches
nothing and no key is handed out. -/
def popOneTimePreKey (pool : List PreKey) : Option PreKey × List PreKey :=
  match pool with
  | [] => (none, [])
  | k :: rest => (some k, rest)

/-- `replenishPreKeys` (part_018 lines 129–134): `$push { oneTimePreKeys: { $each: preKeys } }`
appends the new keys at the tail of the pool. -/
def replenishPreKeys (pool : List PreKey) (preKeys : List PreKey) : List PreKey :=
  pool ++ preKeys

/-- The per-device body of `fetchKeyBundle` (part_018 lines 87–111), run
sequentially: if the pool is nonempty, atomically pop one key, then compute
`remainingCount = length - 1` from the snapshot and emit one `keys:prekey_low`
notice iff `remainingCount < PRE_KEY_LOW_THRESHOLD && remainingCount >= 0`.
Returns (consumed key, number of notices emitted, new pool). -/
def fetchDevice (pool : List PreKey) : Option PreKey × Nat × List PreKey :=
  if pool.length > 0 then
    let popped := popOneTimePreKey pool
    let remainingCount := pool.length - 1
    let notices := if remainingCount < PRE_KEY_LOW_THRESHOLD then 1 else 0
    (popped.1, notices, popped.2)
  else
    (none, 0, pool)

/-- `n` consecutive (sequential) fetches against one device: the list of
(consumed key, notices emitted) per fetch, in order. -/
def fetchRuns : Nat → List PreKey → List (Option PreKey × Nat)
  | 0, _ => []
  | n + 1, pool =>
    let r := fetchDevice pool
    (r.1, r.2.1) :: fetchRuns n r.2.2

/-- A pool of 30 freshly uploaded one-time pre-keys, ids 0..29. -/
def pool30 : List PreKey := (List.range 30).map (fun i => ⟨i, "pk"⟩)

/-! ## FIFO behaviour of the pool (claim C10) -/

/-- An operation on a device's one-time-pre-key pool: a `fetchKeyBundle`
call (which pops at most one key) or a `replenishPreKeys` call. -/
inductive PoolOp where
  | fetch
  | replenish (ks : List PreKey)

/-- Apply one pool operation to (keys handed out so far, current pool). -/
def applyPoolOp : List PreKey × List PreKey → PoolOp → List PreKey × List PreKey
  | (handed, pool), PoolOp.fetch =>
    match popOneTimePreKey pool with
    | (some k, pool') => (handed ++ [k], pool')
    | (none, pool') => (handed, pool')
  | (handed, pool), PoolOp.replenish ks => (handed, replenishPreKeys pool ks)

/-- Run a sequence of pool operations from an initially uploaded pool. -/
def runPoolOps (init : List PreKey) (ops : List PoolOp) : List PreKey × List PreKey :=
  ops.foldl applyPoolOp ([], init)

/-- All keys added by `replenish` operations, in operation order. -/
def replenishedKeys (ops : List PoolOp) : List PreKey :=
  ops.foldl (fun acc op => match op with | PoolOp.replenish ks => acc ++ ks | _ => acc) []

theorem applyPoolOp_spec (handed pool : List PreKey) (op : PoolOp) :
    (applyPoolOp (handed, pool) op).1 ++ (applyPoolOp (handed, pool) op).2 =
      handed ++ pool ++ (replenishedKeys [op]) := by
  cases op with
  | fetch =>
    cases pool with
    | nil => simp [applyPoolOp, popOneTimePreKey, replenishedKeys]
    | cons k rest => simp [applyPoolOp, popOneTimePreKey, replenishedKeys]
  | replenish ks =>
    simp [applyPoolOp, replenishPreKeys, replenishedKeys, List.append_assoc]

theorem runPoolOps_fifo_aux (ops : List PoolOp) :
    ∀ handed pool : List PreKey,
      (ops.foldl applyPoolOp (handed, pool)).1 ++ (ops.foldl applyPoolOp (handed, pool)).2 =
        handed ++ pool ++ ops.foldl (fun acc op =>
          match op with | PoolOp.replenish ks => acc ++ ks | _ => acc) [] := by
  induction ops with
  | nil => intro handed pool; simp
  | cons op rest ih =>
    intro handed pool
    have hstep := applyPoolOp_spec handed pool op
    cases op with
    | fetch =>
      cases pool with
      | nil =>
        simpa [applyPoolOp, popOneTimePreKey] using ih handed []
      | cons k t =>
        have := ih (handed ++ [k]) t
        simp only [List.foldl_cons, applyPoolOp, popOneTimePreKey] at *
        rw [this]
        simp [List.append_assoc]
    | replenish ks =>
      have := ih handed (pool ++ ks)
      simp only [List.foldl_cons, applyPoolOp, replenishPreKeys] at *
      rw [this]
      have hmove : ∀ l : List PoolOp, ∀ a b : List PreKey,
          l.foldl (fun acc op =>
            match op with | PoolOp.replenish ks => acc ++ ks | _ => acc) (a ++ b) =
          a ++ l.foldl (fun acc op =>
            match op with | PoolOp.replenish ks => acc ++ ks | _ => acc) b := by
        intro l
        induction l with
        | nil => intro a b; simp
        | cons o lr ihl =>
          intro a b
          cases o with
          | fetch => simpa using ihl a b
          | replenish ks2 =>
            simp only [List.foldl_cons]
            rw [List.append_assoc, ihl a (b ++ ks2)]
      have h2 := hmove rest ks []
      simp only [List.append_nil] at h2
      simp only [List.nil_append]
      rw [h2]
      simp [List.append_assoc]

/-- **C10.** `fetchKeyBundle`'s pop returns the pool's first (oldest) element and
removes exactly it; `replenishPreKeys` appends at the tail; consequently after
any interleaved sequence of fetch and replenish operations, the keys handed
out followed by the keys still pooled are exactly the uploaded keys in upload
order (FIFO hand-out). -/
theorem prekey_pool_fifo :
    (∀ (k : PreKey) (rest : List PreKey), popOneTimePreKey (k :: rest) = (some k, rest)) ∧
    (∀ pool ks : List PreKey, replenishPreKeys pool ks = pool ++ ks) ∧
    (∀ (init : List PreKey) (ops : List PoolOp),
      (runPoolOps init ops).1 ++ (runPoolOps init ops).2 = init ++ replenishedKeys ops) := by
  refine ⟨fun k rest => rfl, fun pool ks => rfl, fun init ops => ?_⟩
  have := runPoolOps_fifo_aux ops [] init
  simpa [runPoolOps, replenishedKeys] using this

/-! ## Concurrent fetches against one device (claim C1)

`fetchKeyBundle` first reads a snapshot of the bundle (`KeyBundle.find`)
and checks `bundle.oneTimePreKeys.length > 0`; if the snapshot was
nonempty it later performs the *atomic* guarded `$pop` and reads the
consumed key from the pop's own pre-image.  We model `N` concurrent calls
as a transition system whose atomic steps are exactly these two storage
operations; the fetchers are anonymous, so the per-fetcher local states
form a multiset. -/

/-- Local state of one concurrent `fetchKeyBundle` caller with respect to a
fixed device: not yet started; saw a nonempty snapshot (will pop); or done,
carrying the one-time pre-key it was handed (if any). -/
inductive FetcherState where
  | start
  | sawNonempty
  | done (result : Option PreKey)
deriving DecidableEq, Repr

/-- The one-time pre-key a finished fetcher was handed, if any. -/
def resultOf : FetcherState → Option PreKey
  | FetcherState.done (some k) => some k
  | _ => none

/-- Shared pool plus the multiset of concurrent fetcher states. -/
structure FetchConfig where
  pool : List PreKey
  fetchers : Multiset FetcherState

/-- The multiset of one-time pre-keys handed out to the fetchers. -/
def returnedKeys (fs : Multiset FetcherState) : Multiset PreKey :=
  Multiset.filterMap resultOf fs

/-- One atomic step of the concurrent system: a fetcher reads its snapshot
(nonempty or empty), or a fetcher that saw a nonempty snapshot executes the
atomic guarded `$pop` (part_018 lines 89–101), receiving the pre-image's
first element — or nothing, when the pool was drained in between. -/
inductive FetchStep : FetchConfig → FetchConfig → Prop where
  | readNonempty (pool : List PreKey) (rest : Multiset FetcherState) (h : pool ≠ []) :
      FetchStep ⟨pool, FetcherState.start ::ₘ rest⟩ ⟨pool, FetcherState.sawNonempty ::ₘ rest⟩
  | readEmpty (rest : Multiset FetcherState) :
      FetchStep ⟨[], FetcherState.start ::ₘ rest⟩ ⟨[], FetcherState.done none ::ₘ rest⟩
  | popStep (pool : List PreKey) (rest : Multiset FetcherState) :
      FetchStep ⟨pool, FetcherState.sawNonempty ::ₘ rest⟩
        ⟨(popOneTimePreKey pool).2, FetcherState.done (popOneTimePreKey pool).1 ::ₘ rest⟩

/-- Inductive invariant: the handed-out keys and the pool together are
exactly the uploaded keys, a fetcher finishes empty-handed only once the
pool is empty, and the number of fetchers is constant. -/
def FetchInv (P : List PreKey) (N : Nat) (c : FetchConfig) : Prop :=
  returnedKeys c.fetchers + (c.pool : Multiset PreKey) = (P : Multiset PreKey) ∧
  (FetcherState.done none ∈ c.fetchers → c.pool = []) ∧
  Multiset.card c.fetchers = N

theorem returnedKeys_cons_start (rest : Multiset FetcherState) :
    returnedKeys (FetcherState.start ::ₘ rest) = returnedKeys rest :=
  Multiset.filterMap_cons_none _ _ rfl

theorem returnedKeys_cons_saw (rest : Multiset FetcherState) :
    returnedKeys (FetcherState.sawNonempty ::ₘ rest) = returnedKeys rest :=
  Multiset.filterMap_cons_none _ _ rfl

theorem returnedKeys_cons_doneNone (rest : Multiset FetcherState) :
    returnedKeys (FetcherState.done none ::ₘ rest) = returnedKeys rest :=
  Multiset.filterMap_cons_none _ _ rfl

theorem returnedKeys_cons_doneSome (k : PreKey) (rest : Multiset FetcherState) :
    returnedKeys (FetcherState.done (some k) ::ₘ rest) = k ::ₘ returnedKeys rest :=
  Multiset.filterMap_cons_some _ _ _ rfl

theorem fetchStep_inv {P : List PreKey} {N : Nat} {c c' : FetchConfig}
    (hstep : FetchStep c c') (hinv : FetchInv P N c) : FetchInv P N c' := by
  obtain ⟨h1, h2, h3⟩ := hinv
  cases hstep with
  | readNonempty pool rest h =>
    refine ⟨?_, ?_, ?_⟩
    · simpa [returnedKeys_cons_start, returnedKeys_cons_saw] using h1
    · intro hmem
      rcases Multiset.mem_cons.mp hmem with heq | hmem'
      · exact absurd heq (by simp)
      · exact h2 (Multiset.mem_cons.mpr (Or.inr hmem'))
    · simpa using h3
  | readEmpty rest =>
    refine ⟨?_, fun _ => rfl, ?_⟩
    · simpa [returnedKeys_cons_start, returnedKeys_cons_doneNone] using h1
    · simpa using h3
  | popStep pool rest =>
    cases pool with
    | nil =>
      refine ⟨?_, fun _ => rfl, ?_⟩
      · simpa [popOneTimePreKey, returnedKeys_cons_saw, returnedKeys_cons_doneNone] using h1
      · simpa using h3
    | cons k t =>
      refine ⟨?_, ?_, ?_⟩
      · rw [returnedKeys_cons_saw] at h1
        simp only [popOneTimePreKey]
        rw [returnedKeys_cons_doneSome]
        rw [← h1]
        have : ((k :: t : List PreKey) : Multiset PreKey) = k ::ₘ (t : Multiset PreKey) := rfl
        rw [this, Multiset.add_cons, Multiset.cons_add]
      · intro hmem
        rcases Multiset.mem_cons.mp hmem with heq | hmem'
        · simp [popOneTimePreKey] at heq
        · have : FetcherState.done none ∈ FetcherState.sawNonempty ::ₘ rest :=
            Multiset.mem_cons.mpr (Or.inr hmem')
          have := h2 this
          simp at this
      · simpa using h3

theorem fetchReach_inv {P : List PreKey} {N : Nat} {c c' : FetchConfig}
    (hreach : Relation.ReflTransGen FetchStep c c') (hinv : FetchInv P N c) :
    FetchInv P N c' := by
  induction hreach with
  | refl => exact hinv
  | tail _ hstep ih => exact fetchStep_inv hstep ih

theorem returnedKeys_replicate_start (n : Nat) :
    returnedKeys (Multiset.replicate n FetcherState.start) = 0 := by
  induction n with
  | zero => rfl
  | succ m ih =>
    rw [Multiset.replicate_succ, returnedKeys_cons_start, ih]

theorem returnedKeys_card_all_some (fs : Multiset FetcherState)
    (hdone : ∀ s ∈ fs, ∃ r, s = FetcherState.done r)
    (hnone : FetcherState.done none ∉ fs) :
    Multiset.card (returnedKeys fs) = Multiset.card fs := by
  induction fs using Multiset.induction with
  | empty => rfl
  | cons a s ih =>
    obtain ⟨r, hr⟩ := hdone a (Multiset.mem_cons_self a s)
    cases r with
    | none =>
      exact absurd (hr ▸ Multiset.mem_cons_self a s) (hr ▸ hnone)
    | some k =>
      subst hr
      rw [returnedKeys_cons_doneSome, Multiset.card_cons, Multiset.card_cons]
      rw [ih (fun s' hs' => hdone s' (Multiset.mem_cons_of_mem hs'))
        (fun hmem => hnone (Multiset.mem_cons_of_mem hmem))]

/-- **C1.** For `N` concurrent `fetchKeyBundle` calls against a device whose
pool holds the distinct keys `P` with `|P| = K < N`: in every reachable
configuration in which all callers have finished, the keys handed out are
pairwise distinct (no one-time pre-key is handed to two callers), there are
exactly `min N K` of them, and each comes from the uploaded pool. -/
theorem concurrent_fetch_no_double_handout
    (P : List PreKey) (N : Nat) (c : FetchConfig)
    (hnodup : P.Nodup) (hKN : P.length < N)
    (hreach : Relation.ReflTransGen FetchStep
      ⟨P, Multiset.replicate N FetcherState.start⟩ c)
    (hdone : ∀ s ∈ c.fetchers, ∃ r, s = FetcherState.done r) :
    (returnedKeys c.fetchers).Nodup ∧
    Multiset.card (returnedKeys c.fetchers) = min N P.length ∧
    returnedKeys c.fetchers ≤ (P : Multiset PreKey) := by
  have hinv0 : FetchInv P N ⟨P, Multiset.replicate N FetcherState.start⟩ := by
    refine ⟨?_, ?_, ?_⟩
    · rw [returnedKeys_replicate_start]; simp
    · intro hmem
      have := Multiset.eq_of_mem_replicate hmem
      exact absurd this (by simp)
    · simp
  obtain ⟨h1, h2, h3⟩ := fetchReach_inv hreach hinv0
  have hle : returnedKeys c.fetchers ≤ (P : Multiset PreKey) :=
    Multiset.le_iff_exists_add.mpr ⟨(c.pool : Multiset PreKey), h1.symm⟩
  have hnd : (returnedKeys c.fetchers).Nodup :=
    Multiset.nodup_of_le hle (by simpa using hnodup)
  refine ⟨hnd, ?_, hle⟩
  by_cases hmem : FetcherState.done none ∈ c.fetchers
  · have hpool : c.pool = [] := h2 hmem
    have : returnedKeys c.fetchers = (P : Multiset PreKey) := by
      rw [hpool] at h1; simpa using h1
    rw [this]
    simp [Nat.min_eq_right (Nat.le_of_lt hKN)]
  · have hcard := returnedKeys_card_all_some c.fetchers hdone hmem
    rw [h3] at hcard
    have : Multiset.card (returnedKeys c.fetchers) ≤ P.length := by
      simpa using Multiset.card_le_card hle
    omega

/-- The final configuration of a concrete two-fetcher run against a
one-key pool: one fetcher got the key, the other finished empty-handed. -/
def fetchFinalConfig : FetchConfig :=
  ⟨[], FetcherState.done none ::ₘ FetcherState.done (some ⟨0, "pk"⟩) ::ₘ 0⟩

/-- Witness for C1: two concurrent fetchers, a pool holding the single key
`⟨0,"pk"⟩`; the interleaving "fetcher 1 reads nonempty, fetcher 1 pops,
fetcher 2 reads empty" reaches an all-done configuration, and the theorem
yields exactly `min 2 1 = 1` distinct handed-out key. -/
theorem concurrent_fetch_no_double_handout_witness :
    (returnedKeys fetchFinalConfig.fetchers).Nodup ∧
    Multiset.card (returnedKeys fetchFinalConfig.fetchers) = min 2 [(⟨0, "pk"⟩ : PreKey)].length ∧
    returnedKeys fetchFinalConfig.fetchers ≤ (([⟨0, "pk"⟩] : List PreKey) : Multiset PreKey) := by
  have e0 : Multiset.replicate 2 FetcherState.start =
      FetcherState.start ::ₘ FetcherState.start ::ₘ 0 := rfl
  have s1 : FetchStep ⟨[⟨0, "pk"⟩], Multiset.replicate 2 FetcherState.start⟩
      ⟨[⟨0, "pk"⟩], FetcherState.sawNonempty ::ₘ FetcherState.start ::ₘ 0⟩ := by
    rw [e0]
    exact FetchStep.readNonempty _ _ (by simp)
  have s2 : FetchStep ⟨[⟨0, "pk"⟩], FetcherState.sawNonempty ::ₘ FetcherState.start ::ₘ 0⟩
      ⟨[], FetcherState.done (some ⟨0, "pk"⟩) ::ₘ FetcherState.start ::ₘ 0⟩ :=
    FetchStep.popStep [⟨0, "pk"⟩] (FetcherState.start ::ₘ 0)
  have s3 : FetchStep ⟨[], FetcherState.done (some ⟨0, "pk"⟩) ::ₘ FetcherState.start ::ₘ 0⟩
      fetchFinalConfig := by
    have e1 : FetcherState.done (some ⟨0, "pk"⟩) ::ₘ FetcherState.start ::ₘ 0 =
        FetcherState.start ::ₘ FetcherState.done (some ⟨0, "pk"⟩) ::ₘ 0 :=
      Multiset.cons_swap _ _ _
    rw [e1]
    exact FetchStep.readEmpty _
  have hreach : Relation.ReflTransGen FetchStep
      ⟨[⟨0, "pk"⟩], Multiset.replicate 2 FetcherState.start⟩ fetchFinalConfig :=
    Relation.ReflTransGen.head s1 (Relation.ReflTransGen.head s2
      (Relation.ReflTransGen.single s3))
  exact concurrent_fetch_no_double_handout [⟨0, "pk"⟩] 2 fetchFinalConfig
    (by simp) (by simp) hreach
    (by
      intro s hs
      simp only [fetchFinalConfig] at hs
      rcases Multiset.mem_cons.mp hs with h | h
      · exact ⟨none, h⟩
      · rcases Multiset.mem_cons.mp h with h' | h'
        · exact ⟨some ⟨0, "pk"⟩, h'⟩
        · simp at h')

/-- **C5.** A device whose bundle holds 30 one-time pre-keys, fetched 6
consecutive times: every fetch consumes one key, fetches 1–5 emit no
low-pre-key notice, and the 6th fetch (remaining count 24, the first value
below the low-water mark 25) emits exactly one notice. -/
theorem low_prekey_notice_scenario :
    (fetchRuns 6 pool30).map Prod.snd = [0, 0, 0, 0, 0, 1] ∧
    (fetchRuns 6 pool30).map Prod.fst =
      [some ⟨0, "pk"⟩, some ⟨1, "pk"⟩, some ⟨2, "pk"⟩,
       some ⟨3, "pk"⟩, some ⟨4, "pk"⟩, some ⟨5, "pk"⟩] := by
  constructor <;> rfl

/-! ## Groups (group.model.js)

Only the fields and methods the verified services consult: `_id`,
`isActive`, and the member list with roles.  `isMember` and `isAdmin`
mirror the schema methods at group.model.js lines 83–95. -/

structure GroupMember where
  user : Nat
  role : String
deriving DecidableEq, Repr

structure Group where
  id : Nat
  isActive : Bool
  members : List GroupMember
deriving DecidableEq, Repr

/-- `group.isMember(userId)`: some member's user id equals the given id. -/
def Group.isMember (g : Group) (u : Nat) : Bool :=
  g.members.any (fun m => m.user == u)

/-- `group.isAdmin(userId)`: the first member entry with this user id (if
any) has role `'admin'`. -/
def Group.isAdmin (g : Group) (u : Nat) : Bool :=
  match g.members.find? (fun m => m.user == u) with
  | some m => m.role == "admin"
  | none => false

/-- `Group.findOne({ _id: groupId, isActive: true })`. -/
def findActiveGroup (groups : List Group) (gid : Nat) : Option Group :=
  groups.find? (fun g => g.id == gid && g.isActive)

/-! ## Sender-Key Distributor (senderKey.service.js) -/

/-- The identifying tuple of a `GroupSenderKey` document. -/
structure SenderKeyTuple where
  groupId : Nat
  senderId : Nat
  senderDeviceId : String
  recipientId : Nat
  recipientDeviceId : String
deriving DecidableEq, Repr

/-- A stored `GroupSenderKey` document. -/
structure SenderKeyRecord where
  groupId : Nat
  senderId : Nat
  senderDeviceId : String
  recipientId : Nat
  recipientDeviceId : String
  encryptedSenderKey : String
  version : Nat
deriving DecidableEq, Repr

def SenderKeyRecord.tuple (r : SenderKeyRecord) : SenderKeyTuple :=
  ⟨r.groupId, r.senderId, r.senderDeviceId, r.recipientId, r.recipientDeviceId⟩

/-- One entry of the `distributions` array passed to `distributeSenderKeys`.
`version = 0` models a JS-falsy version (`undefined` or `0`), which the
code defaults to `1` via `dist.version || 1`. -/
structure Distribution where
  recipientId : Nat
  recipientDeviceId : String
  encryptedSenderKey : String
  version : Nat
deriving DecidableEq, Repr

/-- `dist.version || 1` (senderKey.service.js line 39). -/
def storedVersion (v : Nat) : Nat := if v = 0 then 1 else v

/-- The tuple a distribution entry addresses. -/
def distTuple (gid sid : Nat) (sdid : String) (d : Distribution) : SenderKeyTuple :=
  ⟨gid, sid, sdid, d.recipientId, d.recipientDeviceId⟩

/-- Mongo `updateOne` semantics: update the first document matching the
filter, leave every other document untouched. -/
def updateFirst {α : Type} (p : α → Bool) (f : α → α) : List α → List α
  | [] => []
  | x :: xs => if p x then f x :: xs else x :: updateFirst p f xs

/-- One `updateOne … upsert: true` of the bulk write (senderKey.service.js
lines 27–51): filter on the full tuple; `$set` the wrapped key and the
defaulted version on a match; insert the full document otherwise.  Each
such operation is atomic at the storage layer. -/
def upsertSenderKey (gid sid : Nat) (sdid : String) (d : Distribution)
    (store : List SenderKeyRecord) : List SenderKeyRecord :=
  if store.any (fun r => r.tuple == distTuple gid sid sdid d) then
    updateFirst (fun r => r.tuple == distTuple gid sid sdid d)
      (fun r => { r with encryptedSenderKey := d.encryptedSenderKey,
                         version := storedVersion d.version }) store
  else
    store ++ [⟨gid, sid, sdid, d.recipientId, d.recipientDeviceId,
               d.encryptedSenderKey, storedVersion d.version⟩]

/-- `distributeSenderKeys` (senderKey.service.js lines 13–64): requires an
active group of which the sender is a member, then applies the bulk upsert
entry by entry.  `none` models a thrown error (no state change). -/
def distributeSenderKeys (groups : List Group) (gid sid : Nat) (sdid : String)
    (dists : List Distribution) (store : List SenderKeyRecord) :
    Option (List SenderKeyRecord) :=
  match findActiveGroup groups gid with
  | none => none
  | some g =>
    if g.isMember sid then
      some (dists.foldl (fun s d => upsertSenderKey gid sid sdid d s) store)
    else none

/-- The stored state after a `distribute` call: unchanged when the call
throws. -/
def distributeResult (groups : List Group) (gid sid : Nat) (sdid : String)
    (dists : List Distribution) (store : List SenderKeyRecord) : List SenderKeyRecord :=
  (distributeSenderKeys groups gid sid sdid dists store).getD store

/-- A `distribute` call together with its arguments. -/
structure DistributeCall where
  groups : List Group
  groupId : Nat
  senderId : Nat
  senderDeviceId : String
  dists : List Distribution

/-- The stored state after a sequence of `distribute` calls. -/
def runDistributes (calls : List DistributeCall) (store : List SenderKeyRecord) :
    List SenderKeyRecord :=
  calls.foldl (fun s c =>
    distributeResult c.groups c.groupId c.senderId c.senderDeviceId c.dists s) store

/-- The sender-key store holds at most one record per identifying tuple. -/
def AtMostOnePerTuple (store : List SenderKeyRecord) : Prop :=
  ∀ t : SenderKeyTuple, store.countP (fun r => r.tuple == t) ≤ 1

theorem updateFirst_countP {α : Type} (p q : α → Bool) (f : α → α) (l : List α)
    (h : ∀ x, p x = true → q (f x) = q x) :
    (updateFirst p f l).countP q = l.countP q := by
  induction l with
  | nil => rfl
  | cons x xs ih =>
    simp only [updateFirst]
    by_cases hp : p x = true
    · rw [if_pos hp]
      simp only [List.countP_cons, h x hp]
    · rw [if_neg hp]
      simp only [List.countP_cons, ih]

theorem updateFirst_find? {α : Type} (p : α → Bool) (f : α → α) (l : List α)
    (h : ∀ x, p x = true → p (f x) = true) :
    (updateFirst p f l).find? p = (l.find? p).map f := by
  induction l with
  | nil => rfl
  | cons x xs ih =>
    simp only [updateFirst]
    by_cases hp : p x = true
    · rw [if_pos hp, List.find?_cons_of_pos _ (h x hp), List.find?_cons_of_pos _ hp]
      rfl
    · rw [if_neg hp, List.find?_cons_of_neg _ hp, List.find?_cons_of_neg _ hp]
      exact ih

/-- The `$set` update of an upsert does not change the identifying tuple. -/
theorem upsert_update_preserves_tuple (d : Distribution) (r : SenderKeyRecord) :
    ({ r with encryptedSenderKey := d.encryptedSenderKey,
              version := storedVersion d.version } : SenderKeyRecord).tuple = r.tuple := rfl

theorem countP_upsert_self (gid sid : Nat) (sdid : String) (d : Distribution)
    (store : List SenderKeyRecord) (hinv : AtMostOnePerTuple store) :
    (upsertSenderKey gid sid sdid d store).countP
      (fun r => r.tuple == distTuple gid sid sdid d) = 1 := by
  by_cases hany : store.any (fun r => r.tuple == distTuple gid sid sdid d) = true
  · simp only [upsertSenderKey]
    rw [if_pos hany,
      updateFirst_countP _ _ _ _ (fun x _ => by rw [upsert_update_preserves_tuple])]
    have hpos : 0 < store.countP (fun r => r.tuple == distTuple gid sid sdid d) := by
      rw [List.countP_pos_iff]
      obtain ⟨x, hx, hpx⟩ := List.any_eq_true.mp hany
      exact ⟨x, hx, hpx⟩
    have := hinv (distTuple gid sid sdid d)
    omega
  · simp only [upsertSenderKey]
    rw [if_neg hany, List.countP_append]
    have hzero : store.countP (fun r => r.tuple == distTuple gid sid sdid d) = 0 := by
      rw [List.countP_eq_zero]
      intro x hx
      intro hpx
      exact hany (List.any_eq_true.mpr ⟨x, hx, hpx⟩)
    rw [hzero]
    simp [SenderKeyRecord.tuple, distTuple]

theorem countP_upsert_other (gid sid : Nat) (sdid : String) (d : Distribution)
    (store : List SenderKeyRecord) (t' : SenderKeyTuple)
    (hne : t' ≠ distTuple gid sid sdid d) :
    (upsertSenderKey gid sid sdid d store).countP (fun r => r.tuple == t') =
      store.countP (fun r => r.tuple == t') := by
  by_cases hany : store.any (fun r => r.tuple == distTuple gid sid sdid d) = true
  · simp only [upsertSenderKey]
    rw [if_pos hany]
    exact updateFirst_countP _ _ _ _ (fun x _ => by rw [upsert_update_preserves_tuple])
  · simp only [upsertSenderKey]
    rw [if_neg hany, List.countP_append]
    have hnewne : ((⟨gid, sid, sdid, d.recipientId, d.recipientDeviceId,
        d.encryptedSenderKey, storedVersion d.version⟩ : SenderKeyRecord).tuple == t') = false := by
      rw [beq_eq_false_iff_ne]
      intro h
      exact hne h.symm
    simp [List.countP_cons, hnewne]

theorem upsert_inv (gid sid : Nat) (sdid : String) (d : Distribution)
    (store : List SenderKeyRecord) (hinv : AtMostOnePerTuple store) :
    AtMostOnePerTuple (upsertSenderKey gid sid sdid d store) := by
  intro t
  by_cases ht : t = distTuple gid sid sdid d
  · subst ht
    rw [countP_upsert_self gid sid sdid d store hinv]
  · rw [countP_upsert_other gid sid sdid d store t ht]
    exact hinv t

theorem foldl_upsert_inv (gid sid : Nat) (sdid : String) (dists : List Distribution)
    (store : List SenderKeyRecord) (hinv : AtMostOnePerTuple store) :
    AtMostOnePerTuple (dists.foldl (fun s d => upsertSenderKey gid sid sdid d s) store) := by
  induction dists generalizing store with
  | nil => exact hinv
  | cons d rest ih =>
    exact ih _ (upsert_inv gid sid sdid d store hinv)

theorem distributeResult_inv (groups : List Group) (gid sid : Nat) (sdid : String)
    (dists : List Distribution) (store : List SenderKeyRecord)
    (hinv : AtMostOnePerTuple store) :
    AtMostOnePerTuple (distributeResult groups gid sid sdid dists store) := by
  unfold distributeResult distributeSenderKeys
  cases findActiveGroup groups gid with
  | none => exact hinv
  | some g =>
    by_cases hm : g.isMember sid = true
    · simpa [hm] using foldl_upsert_inv gid sid sdid dists store hinv
    · simpa [hm] using hinv

theorem find?_upsert_self (gid sid : Nat) (sdid : String) (d : Distribution)
    (store : List SenderKeyRecord) :
    ∃ r, (upsertSenderKey gid sid sdid d store).find?
        (fun r => r.tuple == distTuple gid sid sdid d) = some r ∧
      r.tuple = distTuple gid sid sdid d ∧
      r.encryptedSenderKey = d.encryptedSenderKey ∧
      r.version = storedVersion d.version := by
  by_cases hany : store.any (fun r => r.tuple == distTuple gid sid sdid d) = true
  · simp only [upsertSenderKey]
    rw [if_pos hany, updateFirst_find? _ _ _
      (fun x hx => by rw [upsert_update_preserves_tuple]; exact hx)]
    cases hfind : store.find? (fun r => r.tuple == distTuple gid sid sdid d) with
    | none =>
      obtain ⟨x, hx, hpx⟩ := List.any_eq_true.mp hany
      exact absurd hpx (List.find?_eq_none.mp hfind x hx)
    | some y =>
      have hpy := List.find?_some hfind
      refine ⟨{ y with encryptedSenderKey := d.encryptedSenderKey
                       version := storedVersion d.version }, rfl, ?_, rfl, rfl⟩
      rw [upsert_update_preserves_tuple]
      exact beq_iff_eq.mp hpy
  · simp only [upsertSenderKey]
    rw [if_neg hany, List.find?_append]
    have hnone : store.find? (fun r => r.tuple == distTuple gid sid sdid d) = none := by
      rw [List.find?_eq_none]
      intro x hx hpx
      exact hany (List.any_eq_true.mpr ⟨x, hx, hpx⟩)
    have hpnew : ((⟨gid, sid, sdid, d.recipientId, d.recipientDeviceId,
        d.encryptedSenderKey, storedVersion d.version⟩ : SenderKeyRecord).tuple ==
        distTuple gid sid sdid d) = true := by
      simp [SenderKeyRecord.tuple, distTuple]
    refine ⟨⟨gid, sid, sdid, d.recipientId, d.recipientDeviceId,
      d.encryptedSenderKey, storedVersion d.version⟩, ?_, rfl, rfl, rfl⟩
    rw [hnone, Option.none_or]
    simp only [List.find?]
    rw [hpnew]

/-- **C2.** The bulk upsert of `distributeSenderKeys` keeps at most one
record per (group, sender, senderDevice, recipient, recipientDevice) tuple
across any sequence of `distribute` calls; upserting to a tuple leaves
exactly one record for it, holding the wrapped key and defaulted version
of the applied distribution (the version itself whenever it is non-zero,
i.e. non-falsy in JS), so the last applied distribution wins; records of
every other tuple keep their count. -/
theorem senderkey_upsert_unique (store : List SenderKeyRecord)
    (hinv : AtMostOnePerTuple store) :
    (∀ calls : List DistributeCall, AtMostOnePerTuple (runDistributes calls store)) ∧
    (∀ (gid sid : Nat) (sdid : String) (d : Distribution),
      (upsertSenderKey gid sid sdid d store).countP
        (fun r => r.tuple == distTuple gid sid sdid d) = 1 ∧
      (∃ r, (upsertSenderKey gid sid sdid d store).find?
          (fun r => r.tuple == distTuple gid sid sdid d) = some r ∧
        r.tuple = distTuple gid sid sdid d ∧
        r.encryptedSenderKey = d.encryptedSenderKey ∧
        r.version = storedVersion d.version ∧
        (d.version ≠ 0 → r.version = d.version)) ∧
      (∀ t' : SenderKeyTuple, t' ≠ distTuple gid sid sdid d →
        (upsertSenderKey gid sid sdid d store).countP (fun r => r.tuple == t') =
          store.countP (fun r => r.tuple == t'))) := by
  constructor
  · intro calls
    induction calls generalizing store with
    | nil => exact hinv
    | cons c rest ih =>
      exact ih _ (distributeResult_inv c.groups c.groupId c.senderId
        c.senderDeviceId c.dists store hinv)
  · intro gid sid sdid d
    refine ⟨countP_upsert_self gid sid sdid d store hinv, ?_,
      fun t' ht' => countP_upsert_other gid sid sdid d store t' ht'⟩
    obtain ⟨r, hr, h1, h2, h3⟩ := find?_upsert_self gid sid sdid d store
    exact ⟨r, hr, h1, h2, h3, fun hv => by rw [h3, storedVersion, if_neg hv]⟩

/-- Witness for C2 at a concrete state: the empty store trivially satisfies
the one-record-per-tuple invariant, and upserting a concrete distribution
into it yields exactly one record for its tuple. -/
theorem senderkey_upsert_unique_witness :
    AtMostOnePerTuple ([] : List SenderKeyRecord) ∧
    (∀ calls : List DistributeCall, AtMostOnePerTuple (runDistributes calls [])) := by
  have h0 : AtMostOnePerTuple ([] : List SenderKeyRecord) := by
    intro t; simp [List.countP_nil]
  exact ⟨h0, (senderkey_upsert_unique [] h0).1⟩

/-- The deletion filter of `deleteSenderKeysForUser`
(senderKey.service.js lines 104–112): same group, and the user is the
sender or the recipient. -/
def senderKeyRevokeMatch (gid uid : Nat) (r : SenderKeyRecord) : Bool :=
  r.groupId == gid && (r.senderId == uid || r.recipientId == uid)

theorem senderKeyRevokeMatch_false (gid uid : Nat) (r : SenderKeyRecord) :
    (!(senderKeyRevokeMatch gid uid r)) = true ↔
      ¬(r.groupId = gid ∧ (r.senderId = uid ∨ r.recipientId = uid)) := by
  simp [senderKeyRevokeMatch]
  tauto

/-- `deleteSenderKeysForUser(groupId, userId)`: `deleteMany` on the filter,
returning `deletedCount` together with the surviving store. -/
def deleteSenderKeysForUser (gid uid : Nat) (store : List SenderKeyRecord) :
    Nat × List SenderKeyRecord :=
  (store.countP (senderKeyRevokeMatch gid uid),
   store.filter (fun r => !(senderKeyRevokeMatch gid uid r)))

/-- **C7.** `deleteSenderKeysForUser` removes exactly the records of the
given group whose sender or recipient is the given user and returns their
count; every record of another group, and every record of the group in
which the user is neither sender nor recipient, survives unchanged (the
survivors are a sublist of the store, in original order). -/
theorem revoke_for_user_exact (gid uid : Nat) (store : List SenderKeyRecord) :
    (∀ r : SenderKeyRecord, r ∈ (deleteSenderKeysForUser gid uid store).2 ↔
      (r ∈ store ∧ ¬(r.groupId = gid ∧ (r.senderId = uid ∨ r.recipientId = uid)))) ∧
    (deleteSenderKeysForUser gid uid store).1 =
      (store.filter (fun r =>
        r.groupId == gid && (r.senderId == uid || r.recipientId == uid))).length ∧
    (deleteSenderKeysForUser gid uid store).2.Sublist store := by
  refine ⟨?_, ?_, ?_⟩
  · intro r
    simp only [deleteSenderKeysForUser, List.mem_filter]
    rw [senderKeyRevokeMatch_false]
  · simp only [deleteSenderKeysForUser, List.countP_eq_length_filter]
    rfl
  · exact List.filter_sublist store

/-! ## Delivery Channel (sse.service.js)

`SSEConnectionManager` keeps a `Map` from user-id string to the live
response object.  A sink is modelled as an identity plus whether writes on
it succeed (a failed `res.write` throws and tears the connection down).
Besides the map we track, as observable history, which sinks were closed
by `res.end()` and the sequence of attempted `res.write`s (sink id,
event name). -/

structure Sink where
  id : Nat
  writeOk : Bool
deriving DecidableEq, Repr

structure SSEState where
  connections : List (Nat × Sink)
  closed : List Nat
  writes : List (Nat × String)
deriving DecidableEq, Repr

/-- `Map.prototype.get`. -/
def lookupConn (u : Nat) : List (Nat × Sink) → Option Sink
  | [] => none
  | (v, s) :: rest => if v = u then some s else lookupConn u rest

/-- `Map.prototype.set`: replace the binding for the key if present,
append it otherwise. -/
def setConn (u : Nat) (s : Sink) : List (Nat × Sink) → List (Nat × Sink)
  | [] => [(u, s)]
  | (v, t) :: rest => if v = u then (u, s) :: rest else (v, t) :: setConn u s rest

/-- `Map.prototype.delete`. -/
def delConn (u : Nat) : List (Nat × Sink) → List (Nat × Sink)
  | [] => []
  | (v, t) :: rest => if v = u then rest else (v, t) :: delConn u rest

/-- `addConnection(userId, res)` (sse.service.js lines 27–44): `end()` the
existing sink for the user if any, then install the new one. -/
def addConnection (u : Nat) (s : Sink) (st : SSEState) : SSEState :=
  let closed' := match lookupConn u st.connections with
    | some s0 => st.closed ++ [s0.id]
    | none => st.closed
  { st with connections := setConn u s st.connections, closed := closed' }

/-- `removeConnection(userId)` (lines 50–58). -/
def removeConnection (u : Nat) (st : SSEState) : SSEState :=
  { st with connections := delConn u st.connections }

/-- `isUserOnline(userId)` (lines 65–67). -/
def isUserOnline (u : Nat) (st : SSEState) : Bool :=
  (lookupConn u st.connections).isSome

/-- `sendToUser(userId, event, data)` (lines 76–94): no connection →
`false`; otherwise attempt `res.write` on the mapped sink; a throwing
write removes the connection and returns `false`. -/
def sendToUser (u : Nat) (ev : String) (st : SSEState) : Bool × SSEState :=
  match lookupConn u st.connections with
  | none => (false, st)
  | some s =>
    let st' := { st with writes := st.writes ++ [(s.id, ev)] }
    if s.writeOk then (true, st')
    else (false, removeConnection u st')

/-- An externally triggered operation on the connection manager. -/
inductive SSEOp where
  | add (u : Nat) (s : Sink)
  | remove (u : Nat)
  | send (u : Nat) (ev : String)

def applySSEOp (st : SSEState) : SSEOp → SSEState
  | SSEOp.add u s => addConnection u s st
  | SSEOp.remove u => removeConnection u st
  | SSEOp.send u ev => (sendToUser u ev st).2

def runSSEOps (st : SSEState) (ops : List SSEOp) : SSEState :=
  ops.foldl applySSEOp st

/-- No live connection maps to a sink with the given sink id. -/
def SinkAbsent (sid : Nat) (st : SSEState) : Prop :=
  ∀ p ∈ st.connections, (Prod.snd p).id ≠ sid

theorem lookupConn_setConn_self (u : Nat) (s : Sink) (l : List (Nat × Sink)) :
    lookupConn u (setConn u s l) = some s := by
  induction l with
  | nil => simp [setConn, lookupConn]
  | cons p rest ih =>
    obtain ⟨v, t⟩ := p
    by_cases hv : v = u
    · simp [setConn, hv, lookupConn]
    · simp [setConn, hv, lookupConn, ih]

theorem lookupConn_mem {u : Nat} {s : Sink} {l : List (Nat × Sink)}
    (h : lookupConn u l = some s) : (u, s) ∈ l := by
  induction l with
  | nil => simp [lookupConn] at h
  | cons p rest ih =>
    obtain ⟨v, t⟩ := p
    by_cases hv : v = u
    · subst hv
      simp [lookupConn] at h
      simp [h]
    · simp [lookupConn, hv] at h
      exact List.mem_cons_of_mem _ (ih h)

theorem setConn_mem {u : Nat} {s : Sink} {l : List (Nat × Sink)} {p : Nat × Sink}
    (h : p ∈ setConn u s l) : p ∈ l ∨ p = (u, s) := by
  induction l with
  | nil => simp [setConn] at h; exact Or.inr h
  | cons q rest ih =>
    obtain ⟨v, t⟩ := q
    by_cases hv : v = u
    · simp [setConn, hv] at h
      rcases h with h | h
      · exact Or.inr (by simp [h])
      · exact Or.inl (List.mem_cons_of_mem _ h)
    · simp only [setConn, hv, if_false, List.mem_cons] at h
      rcases h with h | h
      · exact Or.inl (by simp [h])
      · rcases ih h with h' | h'
        · exact Or.inl (List.mem_cons_of_mem _ h')
        · exact Or.inr h'

theorem delConn_sublist (u : Nat) (l : List (Nat × Sink)) :
    (delConn u l).Sublist l := by
  induction l with
  | nil => simp [delConn]
  | cons q rest ih =>
    obtain ⟨v, t⟩ := q
    by_cases hv : v = u
    · simp only [delConn, hv, if_true]
      exact List.sublist_cons_of_sublist _ (List.Sublist.refl rest)
    · simp only [delConn, hv, if_false]
      exact List.Sublist.cons₂ _ ih

/-- A sink id absent from the table stays absent under any operation that
does not register a sink with that id. -/
theorem sinkAbsent_preserved (sid : Nat) (st : SSEState) (op : SSEOp)
    (habs : SinkAbsent sid st)
    (hop : ∀ u s, op = SSEOp.add u s → s.id ≠ sid) :
    SinkAbsent sid (applySSEOp st op) := by
  cases op with
  | add u s =>
    intro p hp
    rcases setConn_mem hp with h | h
    · exact habs p h
    · rw [h]
      exact hop u s rfl
  | remove u =>
    intro p hp
    exact habs p ((delConn_sublist u st.connections).subset hp)
  | send u ev =>
    intro p hp
    simp only [applySSEOp, sendToUser] at hp
    cases hlk : lookupConn u st.connections with
    | none => rw [hlk] at hp; exact habs p hp
    | some s =>
      rw [hlk] at hp
      by_cases hw : s.writeOk = true
      · simp only [hw, if_true] at hp
        exact habs p hp
      · simp only [hw, Bool.false_eq_true, if_false] at hp
        simp only [removeConnection] at hp
        exact habs p ((delConn_sublist u _).subset hp)

/-- A write is only ever attempted on a sink currently in the table. -/
theorem writes_grow_only_current (st : SSEState) (op : SSEOp) (sid : Nat)
    (habs : SinkAbsent sid st) :
    ∀ w ∈ (applySSEOp st op).writes, w ∈ st.writes ∨ w.1 ≠ sid := by
  intro w hw
  cases op with
  | add u s =>
    simp only [applySSEOp, addConnection] at hw
    exact Or.inl hw
  | remove u => exact Or.inl hw
  | send u ev =>
    simp only [applySSEOp, sendToUser] at hw
    cases hlk : lookupConn u st.connections with
    | none => rw [hlk] at hw; exact Or.inl hw
    | some s =>
      rw [hlk] at hw
      have hmemw : w ∈ st.writes ++ [(s.id, ev)] := by
        by_cases hwok : s.writeOk = true
        · simpa [hwok] using hw
        · simpa [hwok, removeConnection] using hw
      rcases List.mem_append.mp hmemw with h | h
      · exact Or.inl h
      · right
        have : w = (s.id, ev) := by simpa using h
        rw [this]
        exact habs (u, s) (lookupConn_mem hlk)

theorem no_writes_to_absent_sink (sid : Nat) (st : SSEState) (ops : List SSEOp)
    (habs : SinkAbsent sid st)
    (hops : ∀ op ∈ ops, ∀ u s, op = SSEOp.add u s → s.id ≠ sid) :
    ∀ w ∈ (runSSEOps st ops).writes, w ∈ st.writes ∨ w.1 ≠ sid := by
  induction ops generalizing st with
  | nil => exact fun w hw => Or.inl hw
  | cons op rest ih =>
    intro w hw
    have habs' : SinkAbsent sid (applySSEOp st op) :=
      sinkAbsent_preserved sid st op habs (hops op (List.mem_cons_self op rest))
    have hops' : ∀ o ∈ rest, ∀ u s, o = SSEOp.add u s → s.id ≠ sid :=
      fun o ho => hops o (List.mem_cons_of_mem _ ho)
    rcases ih (applySSEOp st op) habs' hops' w hw with h | h
    · rcases writes_grow_only_current st op sid habs w h with h' | h'
      · exact Or.inl h'
      · exact Or.inr h'
    · exact Or.inr h

/-- The map keys (user ids) of the connection table, with multiplicity. -/
def connKeys (st : SSEState) : List Nat := st.connections.map Prod.fst

theorem setConn_keys_nodup (u : Nat) (s : Sink) (l : List (Nat × Sink))
    (h : (l.map Prod.fst).Nodup) : ((setConn u s l).map Prod.fst).Nodup := by
  induction l with
  | nil => simp [setConn]
  | cons q rest ih =>
    obtain ⟨v, t⟩ := q
    simp only [List.map_cons, List.nodup_cons] at h
    by_cases hv : v = u
    · subst hv
      have e : setConn v s ((v, t) :: rest) = (v, s) :: rest := by
        simp [setConn]
      rw [e]
      simpa using h
    · have e : setConn u s ((v, t) :: rest) = (v, t) :: setConn u s rest := by
        simp [setConn, hv]
      rw [e]
      simp only [List.map_cons, List.nodup_cons]
      refine ⟨?_, ih h.2⟩
      intro hmem
      have : ∀ x ∈ (setConn u s rest).map Prod.fst, x ∈ rest.map Prod.fst ∨ x = u := by
        intro x hx
        obtain ⟨p, hp, hpx⟩ := List.mem_map.mp hx
        rcases setConn_mem hp with h' | h'
        · exact Or.inl (hpx ▸ List.mem_map_of_mem Prod.fst h')
        · right; rw [← hpx, h']
      rcases this v hmem with h' | h'
      · exact h.1 h'
      · exact hv h'

theorem delConn_keys_nodup (u : Nat) (l : List (Nat × Sink))
    (h : (l.map Prod.fst).Nodup) : ((delConn u l).map Prod.fst).Nodup :=
  ((delConn_sublist u l).map Prod.fst).nodup h

theorem connKeys_nodup_preserved (st : SSEState) (op : SSEOp)
    (h : (connKeys st).Nodup) : (connKeys (applySSEOp st op)).Nodup := by
  cases op with
  | add u s => exact setConn_keys_nodup u s st.connections h
  | remove u => exact delConn_keys_nodup u st.connections h
  | send u ev =>
    simp only [applySSEOp, sendToUser]
    cases hlk : lookupConn u st.connections with
    | none => exact h
    | some s =>
      by_cases hw : s.writeOk = true
      · simpa [hw] using h
      · simp only [hw, Bool.false_eq_true, if_false]
        exact delConn_keys_nodup u st.connections h

theorem connKeys_nodup_run (st : SSEState) (ops : List SSEOp)
    (hnd : (connKeys st).Nodup) : (connKeys (runSSEOps st ops)).Nodup := by
  induction ops generalizing st with
  | nil => exact hnd
  | cons op rest ih => exact ih _ (connKeys_nodup_preserved st op hnd)

theorem setConn_mem_self_key {u : Nat} {s2 t : Sink} {l : List (Nat × Sink)}
    (hnd : (l.map Prod.fst).Nodup) (h : (u, t) ∈ setConn u s2 l) : t = s2 := by
  induction l with
  | nil => simpa [setConn] using h
  | cons q rest ih =>
    obtain ⟨v, t0⟩ := q
    simp only [List.map_cons, List.nodup_cons] at hnd
    by_cases hv : v = u
    · subst hv
      have e : setConn v s2 ((v, t0) :: rest) = (v, s2) :: rest := by
        simp [setConn]
      rw [e] at h
      rcases List.mem_cons.mp h with h | h
      · exact congrArg Prod.snd h
      · exact absurd (List.mem_map_of_mem Prod.fst h) hnd.1
    · have e : setConn u s2 ((v, t0) :: rest) = (v, t0) :: setConn u s2 rest := by
        simp [setConn, hv]
      rw [e] at h
      rcases List.mem_cons.mp h with h | h
      · exact absurd (congrArg Prod.fst h).symm hv
      · exact ih hnd.2 h

/-- **C6.** The live-connection table maps each user to at most one sink:
the user-id keys stay pairwise distinct under every operation sequence;
registering a new sink for a user closes the superseded sink and rebinds
the user to the new sink, so an immediately following push writes to the
new sink and succeeds; and across any further operation sequence that
never re-registers a sink with the superseded sink's id, no write is ever
attempted on the superseded sink. -/
theorem live_channel_single_sink (st : SSEState) (u : Nat) (s1 s2 : Sink)
    (hnd : (connKeys st).Nodup)
    (hcur : lookupConn u st.connections = some s1)
    (hfresh : ∀ p ∈ st.connections, Prod.fst p ≠ u → (Prod.snd p).id ≠ s1.id)
    (hok : s2.writeOk = true) (hne : s2.id ≠ s1.id) :
    (∀ ops : List SSEOp, (connKeys (runSSEOps st ops)).Nodup) ∧
    s1.id ∈ (addConnection u s2 st).closed ∧
    lookupConn u (addConnection u s2 st).connections = some s2 ∧
    (∀ ev, (sendToUser u ev (addConnection u s2 st)).2.writes =
      (addConnection u s2 st).writes ++ [(s2.id, ev)] ∧
      (sendToUser u ev (addConnection u s2 st)).1 = true) ∧
    (∀ ops : List SSEOp,
      (∀ op ∈ ops, ∀ v s, op = SSEOp.add v s → s.id ≠ s1.id) →
      ∀ w ∈ (runSSEOps (addConnection u s2 st) ops).writes,
        w ∈ (addConnection u s2 st).writes ∨ w.1 ≠ s1.id) := by
  have habs : SinkAbsent s1.id (addConnection u s2 st) := by
    intro p hp
    obtain ⟨pu, ps⟩ := p
    simp only [addConnection] at hp
    by_cases hpu : pu = u
    · subst hpu
      have h2 := setConn_mem_self_key hnd hp
      simpa [h2] using hne
    · rcases setConn_mem hp with h | h
      · exact hfresh (pu, ps) h hpu
      · exact absurd (congrArg Prod.fst h) hpu
  refine ⟨fun ops => connKeys_nodup_run st ops hnd, ?_, ?_, ?_, ?_⟩
  · simp only [addConnection, hcur]
    exact List.mem_append.mpr (Or.inr (by simp))
  · simp only [addConnection]
    exact lookupConn_setConn_self u s2 st.connections
  · intro ev
    simp only [sendToUser, addConnection, lookupConn_setConn_self]
    rw [if_pos hok]
    exact ⟨rfl, rfl⟩
  · intro ops hops
    exact no_writes_to_absent_sink s1.id (addConnection u s2 st) ops habs hops

/-- A one-connection state used to instantiate the channel theorem. -/
def sseWitnessState : SSEState := ⟨[(7, ⟨1, true⟩)], [], []⟩

/-- Witness for C6: user 7's sink 1 is superseded by sink 2; sink 1 is
closed, pushes go to sink 2, and no later operation writes to sink 1. -/
theorem live_channel_single_sink_witness :
    (∀ ops : List SSEOp, (connKeys (runSSEOps sseWitnessState ops)).Nodup) ∧
    (⟨1, true⟩ : Sink).id ∈ (addConnection 7 ⟨2, true⟩ sseWitnessState).closed ∧
    lookupConn 7 (addConnection 7 ⟨2, true⟩ sseWitnessState).connections = some ⟨2, true⟩ ∧
    (∀ ev, (sendToUser 7 ev (addConnection 7 ⟨2, true⟩ sseWitnessState)).2.writes =
      (addConnection 7 ⟨2, true⟩ sseWitnessState).writes ++ [((⟨2, true⟩ : Sink).id, ev)] ∧
      (sendToUser 7 ev (addConnection 7 ⟨2, true⟩ sseWitnessState)).1 = true) ∧
    (∀ ops : List SSEOp,
      (∀ op ∈ ops, ∀ v s, op = SSEOp.add v s → s.id ≠ (⟨1, true⟩ : Sink).id) →
      ∀ w ∈ (runSSEOps (addConnection 7 ⟨2, true⟩ sseWitnessState) ops).writes,
        w ∈ (addConnection 7 ⟨2, true⟩ sseWitnessState).writes ∨
          w.1 ≠ (⟨1, true⟩ : Sink).id) :=
  live_channel_single_sink sseWitnessState 7 ⟨1, true⟩ ⟨2, true⟩
    (by decide) (by decide) (by decide) rfl (by decide)

/-! ## Event Outbox (message.service.js notification functions, and the
poll controller part_010)

An `AddressedEvent` is a `Notification` document. -/

structure Notif where
  id : Nat
  user : Nat
  type : String
  title : String
  message : String
  isDelivered : Bool
  isRead : Bool
  createdAt : Nat
deriving DecidableEq, Repr

/-- Actions the outbox performs, in order, as an observable trace. -/
inductive OutboxAction where
  | persist (n : Notif)
  | pushAttempt (u : Nat) (success : Bool)
  | markDelivered (id : Nat)
deriving DecidableEq, Repr

/-- `createNotification` (message.service.js lines 247–280): create the
document with `isDelivered: false`, then, if the user has a live
connection, attempt an SSE push and set `isDelivered: true` exactly when
the push reported success.  Returns the new store, the SSE state, and the
action trace. -/
def createNotification (sse : SSEState) (store : List Notif)
    (freshId now u : Nat) (ty title msg : String) :
    List Notif × SSEState × List OutboxAction :=
  let n : Notif := ⟨freshId, u, ty, title, msg, false, false, now⟩
  let store1 := store ++ [n]
  if isUserOnline u sse then
    let r := sendToUser u "notification" sse
    if r.1 then
      (store1.map (fun m => if m.id = freshId then { m with isDelivered := true } else m),
       r.2,
       [OutboxAction.persist n, OutboxAction.pushAttempt u true,
        OutboxAction.markDelivered freshId])
    else
      (store1, r.2, [OutboxAction.persist n, OutboxAction.pushAttempt u false])
  else
    (store1, sse, [OutboxAction.persist n])

/-- Whether the live push of `createNotification` would succeed: the user
is connected and the sink write does not throw. -/
def pushSucceeds (u : Nat) (sse : SSEState) : Bool :=
  match lookupConn u sse.connections with
  | some s => s.writeOk
  | none => false

theorem isUserOnline_eq (u : Nat) (sse : SSEState) :
    isUserOnline u sse = (lookupConn u sse.connections).isSome := rfl

theorem sendToUser_fst (u : Nat) (ev : String) (sse : SSEState) :
    (sendToUser u ev sse).1 = pushSucceeds u sse := by
  unfold sendToUser pushSucceeds
  cases lookupConn u sse.connections with
  | none => rfl
  | some s =>
    by_cases hw : s.writeOk = true
    · simp [hw]
    · simp [hw]

/-- **C3.** `createNotification` persists the event with `delivered=false`
before any push attempt (the trace starts with the persist of the
undelivered document), and the stored event ends with `delivered=true` if
and only if the live push succeeded. -/
theorem pushSucceeds_of_offline {u : Nat} {sse : SSEState}
    (honline : ¬isUserOnline u sse = true) : pushSucceeds u sse = false := by
  rw [isUserOnline_eq] at honline
  unfold pushSucceeds
  cases hlk : lookupConn u sse.connections with
  | none => rfl
  | some s => exact absurd (by rw [hlk]; rfl) honline

/-- **C3.** `createNotification` persists the event with `delivered=false`
before any push attempt (the trace starts with the persist of the
undelivered document), the new event is stored, and every stored event
carrying the fresh id ends with `delivered=true` if and only if the live
push succeeded. -/
theorem publish_persists_then_pushes (sse : SSEState) (store : List Notif)
    (freshId now u : Nat) (ty title msg : String)
    (hfresh : ∀ m ∈ store, m.id ≠ freshId) :
    (∃ n rest, (createNotification sse store freshId now u ty title msg).2.2 =
        OutboxAction.persist n :: rest ∧
      n.isDelivered = false ∧ n.id = freshId ∧ n.user = u) ∧
    (∃ m, m ∈ (createNotification sse store freshId now u ty title msg).1 ∧
      m.id = freshId) ∧
    (∀ m ∈ (createNotification sse store freshId now u ty title msg).1,
      m.id = freshId → m.isDelivered = pushSucceeds u sse) := by
  unfold createNotification
  by_cases honline : isUserOnline u sse = true
  · rw [if_pos honline]
    by_cases hsent : (sendToUser u "notification" sse).1 = true
    · rw [if_pos hsent]
      refine ⟨⟨_, _, rfl, rfl, rfl, rfl⟩, ?_, ?_⟩
      · refine ⟨{ (⟨freshId, u, ty, title, msg, false, false, now⟩ : Notif) with
          isDelivered := true }, ?_, rfl⟩
        simp only [List.map_append]
        refine List.mem_append.mpr (Or.inr ?_)
        simp
      · intro m hm hid
        obtain ⟨m0, hm0, hfm⟩ := List.mem_map.mp hm
        rcases List.mem_append.mp hm0 with h | h
        · have hne := hfresh m0 h
          rw [if_neg hne] at hfm
          exact absurd (hfm ▸ hid) hne
        · have hm0n : m0 = ⟨freshId, u, ty, title, msg, false, false, now⟩ := by
            simpa using h
          have hfm' : m = ⟨freshId, u, ty, title, msg, true, false, now⟩ := by
            rw [← hfm, hm0n]
            simp
          rw [hfm', ← sendToUser_fst u "notification" sse, hsent]
    · rw [if_neg hsent]
      refine ⟨⟨_, _, rfl, rfl, rfl, rfl⟩, ?_, ?_⟩
      · exact ⟨⟨freshId, u, ty, title, msg, false, false, now⟩, by simp, rfl⟩
      · intro m hm hid
        rcases List.mem_append.mp hm with h | h
        · exact absurd hid (hfresh m h)
        · have hmn : m = ⟨freshId, u, ty, title, msg, false, false, now⟩ := by
            simpa using h
          rw [hmn, ← sendToUser_fst u "notification" sse]
          simpa using hsent
  · rw [if_neg honline]
    refine ⟨⟨_, _, rfl, rfl, rfl, rfl⟩, ?_, ?_⟩
    · exact ⟨⟨freshId, u, ty, title, msg, false, false, now⟩, by simp, rfl⟩
    · intro m hm hid
      rcases List.mem_append.mp hm with h | h
      · exact absurd hid (hfresh m h)
      · have hmn : m = ⟨freshId, u, ty, title, msg, false, false, now⟩ := by
          simpa using h
        rw [hmn, pushSucceeds_of_offline honline]

/-- Witness for C3 at concrete inputs: an offline user (empty connection
table), an empty store. -/
theorem publish_persists_then_pushes_witness :
    (∃ n rest, (createNotification ⟨[], [], []⟩ [] 1 5 7 "t" "ti" "m").2.2 =
        OutboxAction.persist n :: rest ∧
      n.isDelivered = false ∧ n.id = 1 ∧ n.user = 7) ∧
    (∃ m, m ∈ (createNotification ⟨[], [], []⟩ [] 1 5 7 "t" "ti" "m").1 ∧
      m.id = 1) ∧
    (∀ m ∈ (createNotification ⟨[], [], []⟩ [] 1 5 7 "t" "ti" "m").1,
      m.id = 1 → m.isDelivered = pushSucceeds 7 ⟨[], [], []⟩) :=
  publish_persists_then_pushes ⟨[], [], []⟩ [] 1 5 7 "t" "ti" "m" (by simp)

/-- Ascending order of creation time (`.sort({ createdAt: 1 })`). -/
def createdLE (a b : Notif) : Prop := a.createdAt ≤ b.createdAt

instance : DecidableRel createdLE := fun a b => Nat.decLe a.createdAt b.createdAt

instance : IsTotal Notif createdLE := ⟨fun a b => Nat.le_total a.createdAt b.createdAt⟩

instance : IsTrans Notif createdLE := ⟨fun _ _ _ => Nat.le_trans⟩

/-- `getUndeliveredNotifications(userId)` (message.service.js lines
332–339): the caller's events with `isDelivered: false`, sorted ascending
by `createdAt`. -/
def getUndeliveredNotifications (u : Nat) (store : List Notif) : List Notif :=
  List.insertionSort createdLE (store.filter (fun n => n.user == u && !n.isDelivered))

/-- `markAsDelivered(notificationIds, userId)` (lines 347–360):
`updateMany` setting `isDelivered: true` on the caller's still-undelivered
events among the given ids. -/
def markAsDelivered (ids : List Nat) (u : Nat) (store : List Notif) : List Notif :=
  store.map (fun n =>
    if n.id ∈ ids ∧ n.user = u ∧ n.isDelivered = false
    then { n with isDelivered := true } else n)

/-- The immediate branch of `pollNotifications` (part_010 lines 82–104):
read the undelivered events, mark every returned id delivered, return the
events.  Result: (returned events, new store). -/
def pullUndelivered (u : Nat) (store : List Notif) : List Notif × List Notif :=
  (getUndeliveredNotifications u store,
   markAsDelivered ((getUndeliveredNotifications u store).map (fun n => n.id)) u store)

/-- **C4.** `pullUndelivered` returns exactly the caller's undelivered
events, ascending by creation time, preserving multiplicity; as a side
effect exactly the caller's undelivered events are marked delivered; and
an immediately following second pull returns nothing. -/
theorem pull_returns_then_marks (u : Nat) (store : List Notif) :
    (∀ m : Notif, m ∈ (pullUndelivered u store).1 ↔
      (m ∈ store ∧ m.user = u ∧ m.isDelivered = false)) ∧
    List.Sorted createdLE (pullUndelivered u store).1 ∧
    ((pullUndelivered u store).2 = store.map (fun n =>
      if n.user = u ∧ n.isDelivered = false
      then { n with isDelivered := true } else n)) ∧
    (∀ m : Notif, m.user = u → m.isDelivered = false →
      (pullUndelivered u store).1.count m = store.count m) ∧
    ((pullUndelivered u (pullUndelivered u store).2).1 = []) := by
  have hperm : List.Perm (pullUndelivered u store).1
      (store.filter (fun n => n.user == u && !n.isDelivered)) :=
    List.perm_insertionSort _ _
  have hmem : ∀ m : Notif, m ∈ (pullUndelivered u store).1 ↔
      (m ∈ store ∧ m.user = u ∧ m.isDelivered = false) := by
    intro m
    rw [hperm.mem_iff, List.mem_filter]
    simp only [Bool.and_eq_true, beq_iff_eq, Bool.not_eq_true', and_assoc]
  have hcond : ∀ n ∈ store, n.user = u → n.isDelivered = false →
      n.id ∈ (getUndeliveredNotifications u store).map (fun n => n.id) := by
    intro n hn hu hd
    exact List.mem_map_of_mem _ ((hmem n).mpr ⟨hn, hu, hd⟩)
  have hstore : (pullUndelivered u store).2 = store.map (fun n =>
      if n.user = u ∧ n.isDelivered = false
      then { n with isDelivered := true } else n) := by
    show markAsDelivered _ u store = _
    unfold markAsDelivered
    apply List.map_congr_left
    intro n hn
    by_cases hcu : n.user = u ∧ n.isDelivered = false
    · rw [if_pos ⟨hcond n hn hcu.1 hcu.2, hcu⟩, if_pos hcu]
    · rw [if_neg (fun hc => hcu hc.2), if_neg hcu]
  have hfil : ((pullUndelivered u store).2.filter
      (fun n => n.user == u && !n.isDelivered)) = [] := by
    rw [hstore, List.filter_eq_nil_iff]
    intro a ha
    obtain ⟨n, hn, hfn⟩ := List.mem_map.mp ha
    by_cases hcu : n.user = u ∧ n.isDelivered = false
    · rw [if_pos hcu] at hfn
      rw [← hfn]
      simp
    · rw [if_neg hcu] at hfn
      rw [← hfn]
      simp only [Bool.and_eq_true, beq_iff_eq, Bool.not_eq_true']
      exact fun hcc => hcu ⟨hcc.1, hcc.2⟩
  refine ⟨hmem, List.sorted_insertionSort _ _, hstore, ?_, ?_⟩
  · intro m hu hd
    rw [hperm.count_eq, List.count_filter (by simp [hu, hd])]
  · show List.insertionSort createdLE _ = []
    rw [hfil]
    rfl

/-- Witness and scenario for C4: user 7 has no live channel; `publish`
stores one event undelivered; the first pull returns it exactly once and
marks it; the second pull returns nothing. -/
theorem pull_returns_then_marks_witness :
    (∀ m : Notif, m ∈ (pullUndelivered 7
        (createNotification ⟨[], [], []⟩ [] 1 5 7 "t" "ti" "m").1).1 ↔
      (m ∈ (createNotification ⟨[], [], []⟩ [] 1 5 7 "t" "ti" "m").1 ∧
        m.user = 7 ∧ m.isDelivered = false)) ∧
    List.Sorted createdLE (pullUndelivered 7
      (createNotification ⟨[], [], []⟩ [] 1 5 7 "t" "ti" "m").1).1 ∧
    ((pullUndelivered 7 (createNotification ⟨[], [], []⟩ [] 1 5 7 "t" "ti" "m").1).2 =
      (createNotification ⟨[], [], []⟩ [] 1 5 7 "t" "ti" "m").1.map (fun n =>
        if n.user = 7 ∧ n.isDelivered = false
        then { n with isDelivered := true } else n)) ∧
    (∀ m : Notif, m.user = 7 → m.isDelivered = false →
      (pullUndelivered 7 (createNotification ⟨[], [], []⟩ [] 1 5 7 "t" "ti" "m").1).1.count m =
        (createNotification ⟨[], [], []⟩ [] 1 5 7 "t" "ti" "m").1.count m) ∧
    ((pullUndelivered 7 (pullUndelivered 7
        (createNotification ⟨[], [], []⟩ [] 1 5 7 "t" "ti" "m").1).2).1 = []) :=
  pull_returns_then_marks 7 (createNotification ⟨[], [], []⟩ [] 1 5 7 "t" "ti" "m").1

/-! ## Encrypted Relay (encryptedMessage.service.js) -/

structure EncMessage where
  id : Nat
  chatId : Nat
  senderId : Nat
  senderDeviceId : String
  type : String
  ciphertext : String
  ephemeralKey : Option String
  oneTimePreKeyId : Option Nat
  messageNumber : Nat
  previousChainLength : Nat
  attachments : List String
  readBy : List Nat
  isDeleted : Bool
  createdAt : Nat
deriving DecidableEq, Repr

/-- `deleteMessage(chatId, messageId, userId)` (lines 205–240): requires
an active group of which the caller is a member, the message to exist in
the chat, and the caller to be the original sender or a group admin; then
soft-deletes, blanking the ciphertext.  `none` models a thrown error. -/
def deleteMessage (groups : List Group) (store : List EncMessage)
    (chatId messageId userId : Nat) : Option (List EncMessage) :=
  match findActiveGroup groups chatId with
  | none => none
  | some g =>
    if g.isMember userId then
      match store.find? (fun m => m.id == messageId && m.chatId == chatId) with
      | none => none
      | some m =>
        if m.senderId == userId || g.isAdmin userId then
          some (updateFirst (fun m => m.id == messageId && m.chatId == chatId)
            (fun m => { m with isDeleted := true, ciphertext := "" }) store)
        else none
    else none

/-- **C8.** A successful delete implies the caller was the original sender
or a group admin, and the store afterwards resolves the message to the
original record with `isDeleted := true` and blanked ciphertext — id and
every other stored field unchanged (a subsequent fetch shows exactly
this). -/
theorem delete_blanks_ciphertext (groups : List Group)
    (store st' : List EncMessage) (chatId messageId userId : Nat)
    (hok : deleteMessage groups store chatId messageId userId = some st') :
    ∃ g m, findActiveGroup groups chatId = some g ∧
      store.find? (fun m => m.id == messageId && m.chatId == chatId) = some m ∧
      (m.senderId = userId ∨ g.isAdmin userId = true) ∧
      st'.find? (fun m => m.id == messageId && m.chatId == chatId) =
        some { m with isDeleted := true, ciphertext := "" } := by
  unfold deleteMessage at hok
  cases hg : findActiveGroup groups chatId with
  | none => rw [hg] at hok; exact absurd hok (by simp)
  | some g =>
    rw [hg] at hok
    dsimp only at hok
    by_cases hmem : g.isMember userId = true
    · rw [if_pos hmem] at hok
      cases hf : store.find? (fun m => m.id == messageId && m.chatId == chatId) with
      | none => rw [hf] at hok; exact absurd hok (by simp)
      | some m =>
        rw [hf] at hok
        dsimp only at hok
        by_cases hperm : (m.senderId == userId || g.isAdmin userId) = true
        · rw [if_pos hperm] at hok
          refine ⟨g, m, rfl, rfl, ?_, ?_⟩
          · rcases Bool.or_eq_true_iff.mp hperm with h | h
            · exact Or.inl (by simpa using h)
            · exact Or.inr h
          · have hupd := updateFirst_find?
              (fun m : EncMessage => m.id == messageId && m.chatId == chatId)
              (fun m => { m with isDeleted := true, ciphertext := "" }) store
              (fun x hx => hx)
            have hst : st' = updateFirst
                (fun m : EncMessage => m.id == messageId && m.chatId == chatId)
                (fun m => { m with isDeleted := true, ciphertext := "" }) store := by
              injection hok with h
              exact h.symm
            rw [hst, hupd, hf]
            rfl
        · rw [if_neg hperm] at hok
          exact absurd hok (by simp)
    · rw [if_neg hmem] at hok
      exact absurd hok (by simp)

/-- A concrete group, message and store for the delete witness. -/
def wGroup : Group := ⟨1, true, [⟨7, "admin"⟩, ⟨8, "member"⟩]⟩

def wMsg : EncMessage := ⟨10, 1, 8, "d1", "text", "CT", none, none, 0, 0, [], [], false, 3⟩

/-- Witness for C8: user 7 (an admin, not the sender) deletes message 10
of chat 1; the stored record keeps every field except the blanked
ciphertext and the raised delete flag. -/
theorem delete_blanks_ciphertext_witness :
    ∃ g m, findActiveGroup [wGroup] 1 = some g ∧
      [wMsg].find? (fun m => m.id == 10 && m.chatId == 1) = some m ∧
      (m.senderId = 7 ∨ g.isAdmin 7 = true) ∧
      ([{ wMsg with isDeleted := true, ciphertext := "" }].find?
          (fun m => m.id == 10 && m.chatId == 1)) =
        some { m with isDeleted := true, ciphertext := "" } :=
  delete_blanks_ciphertext [wGroup] [wMsg]
    [{ wMsg with isDeleted := true, ciphertext := "" }] 1 10 7 (by rfl)

/-! ## Generic, content-free notifications on relay send (claim C9) -/

structure User where
  id : Nat
  fName : String
  lName : String
deriving DecidableEq, Repr

/-- `NOTIFICATION_TEMPLATES[type] || NOTIFICATION_TEMPLATES.text`
(lines 11–17 and 80): the generic text for a notification, selected only
by the stored message type and the sender's display name. -/
def notificationText (ty senderName : String) : String :=
  if ty = "text" then "New message from " ++ senderName
  else if ty = "image" then senderName ++ " sent a photo"
  else if ty = "video" then senderName ++ " sent a video"
  else if ty = "audio" then senderName ++ " sent an audio message"
  else if ty = "file" then senderName ++ " sent a file"
  else "New message from " ++ senderName

/-- `messageData.type || 'text'` (line 46): the empty string models a
JS-falsy `type`. -/
def storedType (ty : String) : String := if ty = "" then "text" else ty

def findUser (users : List User) (uid : Nat) : Option User :=
  users.find? (fun v => v.id == uid)

/-- `sender ? (fName + ' ' + lName).trim() : 'Someone'` (line 79). -/
def senderDisplayName (users : List User) (uid : Nat) : String :=
  match findUser users uid with
  | some v => (v.fName ++ " " ++ v.lName).trim
  | none => "Someone"

/-- The body of an encrypted-message `send` call: every field but the
routing identifiers is opaque to the server. -/
structure MessageData where
  senderDeviceId : String
  type : String
  ciphertext : String
  ephemeralKey : Option String
  oneTimePreKeyId : Option Nat
  messageNumber : Nat
  previousChainLength : Nat
  attachments : List String
deriving DecidableEq, Repr

/-- The notification record enqueued per recipient by
`createNotifications(recipientIds, 'message.encrypted', notifMessage,
notifMessage, { chatId, messageId, senderId, type })` (lines 83–94). -/
structure EncNotifPayload where
  type : String
  title : String
  message : String
  dataChatId : Nat
  dataMessageId : Nat
  dataSenderId : Nat
  dataType : String
deriving DecidableEq, Repr

/-- The stored `EncryptedMessage` document (lines 42–53). -/
def sentMessage (freshId now chatId senderId : Nat) (md : MessageData) : EncMessage :=
  ⟨freshId, chatId, senderId, md.senderDeviceId, storedType md.type, md.ciphertext,
   md.ephemeralKey, md.oneTimePreKeyId, md.messageNumber, md.previousChainLength,
   md.attachments, [], false, now⟩

def encNotifPayload (users : List User) (chatId freshId senderId : Nat)
    (ty : String) : EncNotifPayload :=
  ⟨"message.encrypted", notificationText ty (senderDisplayName users senderId),
   notificationText ty (senderDisplayName users senderId),
   chatId, freshId, senderId, ty⟩

/-- `group.members.filter(user ≠ sender).map(user)` (lines 56–58). -/
def groupRecipients (g : Group) (senderId : Nat) : List Nat :=
  (g.members.filter (fun m => m.user != senderId)).map (fun m => m.user)

/-- `sendEncryptedMessage` (lines 26–107), restricted to its store and
notification effects: membership check, verbatim persistence, and one
generic notification per recipient. -/
def sendEncryptedMessage (groups : List Group) (users : List User)
    (freshId now chatId senderId : Nat) (md : MessageData) :
    Option (EncMessage × List (Nat × EncNotifPayload)) :=
  match findActiveGroup groups chatId with
  | none => none
  | some g =>
    if g.isMember senderId then
      some (sentMessage freshId now chatId senderId md,
        (groupRecipients g senderId).map (fun r =>
          (r, encNotifPayload users chatId freshId senderId (storedType md.type))))
    else none

/-- **C9.** The notifications enqueued by relay `send` are a function of
the message type, the sender's display name and the routing identifiers
alone: two send calls whose message data agree on `type` — and may differ
arbitrarily in ciphertext, ephemeral key, one-time-pre-key id, message
number, previous chain length, sender device and attachments — enqueue
identical notification records.  The notification path never receives the
ciphertext. -/
theorem notification_ciphertext_independent (groups : List Group) (users : List User)
    (freshId now chatId senderId : Nat) (md1 md2 : MessageData)
    (hty : md1.type = md2.type) :
    Option.map (fun r => r.2)
        (sendEncryptedMessage groups users freshId now chatId senderId md1) =
      Option.map (fun r => r.2)
        (sendEncryptedMessage groups users freshId now chatId senderId md2) := by
  unfold sendEncryptedMessage
  cases findActiveGroup groups chatId with
  | none => rfl
  | some g =>
    dsimp only
    by_cases hm : g.isMember senderId = true
    · rw [if_pos hm, if_pos hm, hty]
      rfl
    · rw [if_neg hm, if_neg hm]

/-- Witness for C9: two sends into the same group differing in every
opaque field (ciphertext, ephemeral key, ratchet counters, attachments)
but agreeing on type enqueue identical notifications. -/
theorem notification_ciphertext_independent_witness :
    Option.map (fun r => r.2)
        (sendEncryptedMessage [wGroup] [⟨8, "Ann", "Lee"⟩] 10 3 1 8
          ⟨"d1", "text", "CT-ONE", some "ek", some 4, 5, 2, ["a"]⟩) =
      Option.map (fun r => r.2)
        (sendEncryptedMessage [wGroup] [⟨8, "Ann", "Lee"⟩] 10 3 1 8
          ⟨"d2", "text", "CT-TWO", none, none, 9, 8, []⟩) :=
  notification_ciphertext_independent [wGroup] [⟨8, "Ann", "Lee"⟩] 10 3 1 8
    ⟨"d1", "text", "CT-ONE", some "ek", some 4, 5, 2, ["a"]⟩
    ⟨"d2", "text", "CT-TWO", none, none, 9, 8, []⟩ rfl

end THAP
